import Mathlib

set_option maxHeartbeats 1000000

/-!
Verification of the question-generation engine of `quiz-module.js`.

The quiz module is embedded shallowly: the catalog is a list of
normalized entries, `Math.random()` draws are explicit parameters
(`g : Nat → Nat` streams, one value per draw, with
`Math.floor(Math.random() * max)` becoming `g k % max`), and JS objects
used as dictionaries become association lists.  Catalog entries are
created freshly by `normalizeWords`, so JS reference equality on entries
coincides with catalog-index equality; wherever the source compares
entry references (`Array.prototype.includes`), the embedding tracks
catalog indices instead.
-/

/-- A normalized word entry: the four fields `[word, meaning, hint, POS]`
produced by `normalizeWords` in `quiz-module.js`. -/
structure Entry where
  word : String
  meaning : String
  hint : String
  pos : String
deriving DecidableEq, Repr, Inhabited

/-- JS index access `w[i]` on a normalized entry, with the code's
`(w[i] || "") + ""` coercion of the out-of-range `undefined` to `""`. -/
def Entry.field (e : Entry) : Nat → String
  | 0 => e.word
  | 1 => e.meaning
  | 2 => e.hint
  | 3 => e.pos
  | _ => ""

/-- Entry lookup `cfg.words[i] || []`, with out-of-range access falling
back to the entry whose fields all read as empty. -/
def wordAt (words : List Entry) (i : Nat) : Entry :=
  words.getD i ⟨"", "", "", ""⟩

/-- Answer text of catalog entry `i` for the active mode:
`(cfg.words[i][cfg.mode] || "") + ""`. -/
def answerText (words : List Entry) (mode i : Nat) : String :=
  (wordAt words i).field mode

/-- The swap step `[a[i], a[j]] = [a[j], a[i]]` of `shuffleArray`;
out-of-range positions leave the list unchanged (the program only swaps
in-range positions). -/
def swapPos (l : List α) (i j : Nat) : List α :=
  match l[i]?, l[j]? with
  | some a, some b => (l.set i b).set j a
  | _, _ => l

/-- The Fisher-Yates loop of `shuffleArray`, from position `i` down to
`1`; `g i` models the `Math.random()` draw used at position `i`, so
`j = Math.floor(Math.random() * (i + 1))` becomes `g i % (i + 1)`. -/
def fyLoop (g : Nat → Nat) : Nat → List α → List α
  | 0, l => l
  | i + 1, l => fyLoop g i (swapPos l (i + 1) (g (i + 1) % (i + 2)))

/-- Function `shuffleArray` from `quiz-module.js`: Fisher-Yates shuffle of a copy
of the input, with the random draws supplied by the stream `g`. -/
def shuffleArray (g : Nat → Nat) (xs : List α) : List α :=
  fyLoop g (xs.length - 1) xs

theorem count_set [DecidableEq α] (a x : α) :
    ∀ (l : List α) (k : Nat) (hk : k < l.length),
      (l.set k x).count a + (if l.get ⟨k, hk⟩ = a then 1 else 0) =
        l.count a + (if x = a then 1 else 0)
  | y :: ys, 0, _ => by
    simp only [List.set, List.count_cons, List.get, beq_iff_eq]
    split_ifs <;> omega
  | y :: ys, k + 1, hk => by
    have ih := count_set a x ys k (by simpa using hk)
    simp only [List.set, List.count_cons, List.get, beq_iff_eq]
    split_ifs at ih ⊢ <;> omega

theorem set_set_swap_perm [DecidableEq α] (l : List α) (i j : Nat) (a b : α)
    (hil : i < l.length) (hjl : j < l.length)
    (hia : l.get ⟨i, hil⟩ = a) (hjb : l.get ⟨j, hjl⟩ = b) :
    ((l.set i b).set j a).Perm l := by
  rw [List.perm_iff_count]
  intro c
  have hjl2 : j < (l.set i b).length := by simpa using hjl
  have h1 := count_set c a (l.set i b) j hjl2
  have h2 := count_set c b l i hil
  by_cases hij : i = j
  · subst hij
    have hab : a = b := by rw [← hia, hjb]
    subst hab
    have hget : (l.set i a).get ⟨i, hjl2⟩ = a := by
      simp [List.get_eq_getElem]
    rw [hget] at h1
    rw [hia] at h2
    split_ifs at h1 h2 <;> omega
  · have hget : (l.set i b).get ⟨j, hjl2⟩ = l.get ⟨j, hjl⟩ := by
      simp [List.get_eq_getElem, List.getElem_set_ne (Ne.symm (Ne.symm hij))]
    rw [hget, hjb] at h1
    rw [hia] at h2
    split_ifs at h1 h2 <;> omega

theorem swapPos_perm [DecidableEq α] (l : List α) (i j : Nat) :
    (swapPos l i j).Perm l := by
  unfold swapPos
  split
  · next a b hi hj =>
    have hil : i < l.length := by
      by_contra h
      rw [List.getElem?_eq_none (by omega)] at hi
      exact Option.noConfusion hi
    have hjl : j < l.length := by
      by_contra h
      rw [List.getElem?_eq_none (by omega)] at hj
      exact Option.noConfusion hj
    have hia : l.get ⟨i, hil⟩ = a := by
      have := List.getElem?_eq_getElem hil
      rw [hi] at this
      simpa [List.get_eq_getElem] using this.symm
    have hjb : l.get ⟨j, hjl⟩ = b := by
      have := List.getElem?_eq_getElem hjl
      rw [hj] at this
      simpa [List.get_eq_getElem] using this.symm
    exact set_set_swap_perm l i j a b hil hjl hia hjb
  · exact List.Perm.refl l

theorem fyLoop_perm [DecidableEq α] (g : Nat → Nat) :
    ∀ (i : Nat) (l : List α), (fyLoop g i l).Perm l
  | 0, l => List.Perm.refl l
  | i + 1, l => by
    have h1 := fyLoop_perm g i (swapPos l (i + 1) (g (i + 1) % (i + 2)))
    have h2 := swapPos_perm l (i + 1) (g (i + 1) % (i + 2))
    exact h1.trans h2

/-- Shuffling returns a permutation of its input. -/
theorem shuffleArray_perm [DecidableEq α] (g : Nat → Nat) (xs : List α) :
    (shuffleArray g xs).Perm xs :=
  fyLoop_perm g (xs.length - 1) xs

theorem shuffleArray_length [DecidableEq α] (g : Nat → Nat) (xs : List α) :
    (shuffleArray g xs).length = xs.length :=
  (shuffleArray_perm g xs).length_eq

theorem mem_shuffleArray [DecidableEq α] (g : Nat → Nat) (xs : List α) (a : α) :
    a ∈ shuffleArray g xs ↔ a ∈ xs :=
  (shuffleArray_perm g xs).mem_iff

theorem shuffleArray_nodup [DecidableEq α] (g : Nat → Nat) (xs : List α)
    (h : xs.Nodup) : (shuffleArray g xs).Nodup :=
  (shuffleArray_perm g xs).nodup_iff.mpr h

theorem shuffleArray_singleton [DecidableEq α] (g : Nat → Nat) (x : α) :
    shuffleArray g [x] = [x] := rfl

/-- Push `m[k] = m[k] || []; m[k].push(i)` on a JS object used as a
dictionary, modelled as an association list (no claim depends on key
iteration order). -/
def pushAt [DecidableEq κ] : List (κ × List Nat) → κ → Nat → List (κ × List Nat)
  | [], k, i => [(k, [i])]
  | (k2, v) :: rest, k, i =>
    if k2 = k then (k2, v ++ [i]) :: rest else (k2, v) :: pushAt rest k i

/-- Lookup `m[k]` on such a dictionary, with the absent key reading as the
empty index list (the source guards every use with a truthiness or
`if (!arr) continue` check, so the two are interchangeable). -/
def lookupIdx [DecidableEq κ] : List (κ × List Nat) → κ → List Nat
  | [], _ => []
  | (k2, v) :: rest, k => if k2 = k then v else lookupIdx rest k

theorem lookupIdx_pushAt [DecidableEq κ] (m : List (κ × List Nat)) (k : κ) (i : Nat)
    (q : κ) :
    lookupIdx (pushAt m k i) q = lookupIdx m q ++ (if k = q then [i] else []) := by
  induction m with
  | nil =>
    simp [pushAt, lookupIdx]
  | cons p rest ih =>
    obtain ⟨k2, v⟩ := p
    by_cases h1 : k2 = k
    · subst h1
      simp only [pushAt, if_pos rfl, lookupIdx]
      by_cases h2 : k2 = q
      · simp [h2]
      · simp [h2]
    · simp only [pushAt, if_neg h1, lookupIdx]
      by_cases h2 : k2 = q
      · have hk : ¬k = q := fun hkq => h1 (h2.trans hkq.symm)
        simp [h2, hk]
      · simp [h2, ih]

/-- The two secondary indexes built by `buildIndex`. -/
structure WordIndexMap where
  byPOS : List (String × List Nat)
  byLen : List (Nat × List Nat)
deriving DecidableEq, Repr

/-- Function `buildIndex` from `quiz-module.js`: one pass over `cfg.words`,
pushing each index `i` into `byPOS[POS]` when the entry's POS field is
truthy (non-empty) and into `byLen[answer-text length]` always. -/
def buildIndex (words : List Entry) (mode : Nat) : WordIndexMap :=
  (List.range words.length).foldl
    (fun m i =>
      let w := wordAt words i
      let m2 := if w.pos ≠ "" then { m with byPOS := pushAt m.byPOS w.pos i } else m
      { m2 with byLen := pushAt m2.byLen (w.field mode).length i })
    ⟨[], []⟩

theorem buildIndex_fold_byLen (words : List Entry) (mode : Nat) (l : Nat) :
    ∀ (L : List Nat) (m0 : WordIndexMap),
      lookupIdx (L.foldl
        (fun m i =>
          let w := wordAt words i
          let m2 := if w.pos ≠ "" then { m with byPOS := pushAt m.byPOS w.pos i } else m
          { m2 with byLen := pushAt m2.byLen (w.field mode).length i }) m0).byLen l =
      lookupIdx m0.byLen l ++ L.filter (fun i => ((wordAt words i).field mode).length = l)
  | [], m0 => by simp
  | i :: L, m0 => by
    rw [List.foldl_cons, buildIndex_fold_byLen words mode l L]
    by_cases hp : (wordAt words i).pos = "" <;>
      by_cases h : ((wordAt words i).field mode).length = l <;>
        simp [hp, h, lookupIdx_pushAt, List.filter_cons, List.append_assoc]

theorem buildIndex_fold_byPOS (words : List Entry) (mode : Nat) (p : String) :
    ∀ (L : List Nat) (m0 : WordIndexMap),
      lookupIdx (L.foldl
        (fun m i =>
          let w := wordAt words i
          let m2 := if w.pos ≠ "" then { m with byPOS := pushAt m.byPOS w.pos i } else m
          { m2 with byLen := pushAt m2.byLen (w.field mode).length i }) m0).byPOS p =
      lookupIdx m0.byPOS p ++
        (if p = "" then [] else L.filter (fun i => (wordAt words i).pos = p))
  | [], m0 => by simp
  | i :: L, m0 => by
    rw [List.foldl_cons, buildIndex_fold_byPOS words mode p L]
    by_cases hp : (wordAt words i).pos = "" <;>
      by_cases h2 : (wordAt words i).pos = p <;>
        by_cases h3 : p = "" <;>
          simp_all [lookupIdx_pushAt, List.filter_cons, List.append_assoc]

/-- The `byLen` index, keyed at `l`, holds exactly the catalog indices
whose answer text has length `l`, in catalog order. -/
theorem buildIndex_byLen (words : List Entry) (mode : Nat) (l : Nat) :
    lookupIdx (buildIndex words mode).byLen l =
      (List.range words.length).filter
        (fun i => ((wordAt words i).field mode).length = l) := by
  unfold buildIndex
  rw [buildIndex_fold_byLen]
  simp [lookupIdx]

/-- The `byPOS` index, keyed at `p`, holds exactly the catalog indices
whose POS field is the non-empty string `p`, in catalog order. -/
theorem buildIndex_byPOS (words : List Entry) (mode : Nat) (p : String) :
    lookupIdx (buildIndex words mode).byPOS p =
      if p = "" then []
      else (List.range words.length).filter (fun i => (wordAt words i).pos = p) := by
  unfold buildIndex
  rw [buildIndex_fold_byPOS]
  simp [lookupIdx]

/-- JS `Set.prototype.add`, with the set modelled as its
insertion-ordered element list. -/
def setAdd (s : List Nat) (x : Nat) : List Nat :=
  if x ∈ s then s else s ++ [x]

/-- The `for (const idx of arr) if (idx !== wordIndex) candidates.add(idx)`
loops of `getCandidateDistractorIndices`. -/
def addOthers (wordIndex : Nat) (s : List Nat) (arr : List Nat) : List Nat :=
  arr.foldl (fun s idx => if idx ≠ wordIndex then setAdd s idx else s) s

theorem mem_setAdd (s : List Nat) (x y : Nat) :
    y ∈ setAdd s x ↔ y ∈ s ∨ y = x := by
  unfold setAdd
  split_ifs with h
  · constructor
    · exact Or.inl
    · rintro (hy | rfl) <;> assumption
  · simp

theorem nodup_setAdd (s : List Nat) (x : Nat) (h : s.Nodup) :
    (setAdd s x).Nodup := by
  unfold setAdd
  split_ifs with hx
  · exact h
  · simpa [List.nodup_append, h] using hx

theorem mem_addOthers (wordIndex : Nat) :
    ∀ (arr s : List Nat) (y : Nat),
      y ∈ addOthers wordIndex s arr ↔ y ∈ s ∨ (y ∈ arr ∧ y ≠ wordIndex)
  | [], s, y => by simp [addOthers]
  | idx :: arr, s, y => by
    unfold addOthers
    rw [List.foldl_cons]
    have ih := mem_addOthers wordIndex arr
      (if idx ≠ wordIndex then setAdd s idx else s) y
    unfold addOthers at ih
    rw [ih]
    by_cases hidx : idx = wordIndex
    · subst hidx
      simp only [ne_eq, not_true_eq_false, if_false, List.mem_cons]
      constructor
      · rintro (hy | hy)
        · exact Or.inl hy
        · exact Or.inr ⟨Or.inr hy.1, hy.2⟩
      · rintro (hy | ⟨rfl | hy, hne⟩)
        · exact Or.inl hy
        · exact absurd rfl hne
        · exact Or.inr ⟨hy, hne⟩
    · simp only [ne_eq, hidx, not_false_eq_true, if_true, mem_setAdd, List.mem_cons]
      constructor
      · rintro ((hy | rfl) | hy)
        · exact Or.inl hy
        · exact Or.inr ⟨Or.inl rfl, hidx⟩
        · exact Or.inr ⟨Or.inr hy.1, hy.2⟩
      · rintro (hy | ⟨rfl | hy, hne⟩)
        · exact Or.inl (Or.inl hy)
        · exact Or.inl (Or.inr rfl)
        · exact Or.inr ⟨hy, hne⟩

theorem nodup_addOthers (wordIndex : Nat) :
    ∀ (arr s : List Nat), s.Nodup → (addOthers wordIndex s arr).Nodup
  | [], s, h => h
  | idx :: arr, s, h => by
    unfold addOthers
    rw [List.foldl_cons]
    apply nodup_addOthers wordIndex arr
    split_ifs with hidx
    · exact nodup_setAdd s idx h
    · exact h

theorem not_mem_addOthers_self (wordIndex : Nat) (arr s : List Nat)
    (h : wordIndex ∉ s) : wordIndex ∉ addOthers wordIndex s arr := by
  rw [mem_addOthers]
  rintro (hy | hy)
  · exact h hy
  · exact hy.2 rfl

/-- The `candidates` set of `getCandidateDistractorIndices` after the
part-of-speech and answer-length gathering loops (before the emptiness
fallback): the JS `Set` is its insertion-ordered element list. -/
def neighborCandidates (words : List Entry) (mode : Nat) (wordIndex : Nat) : List Nat :=
  let m := buildIndex words mode
  let w := wordAt words wordIndex
  let s1 := if w.pos ≠ "" then addOthers wordIndex [] (lookupIdx m.byPOS w.pos) else []
  let len := (w.field mode).length
  ([-2, -1, 0, 1, 2] : List Int).foldl
    (fun s d =>
      let l : Int := (len : Int) + d
      if l < 0 then s else addOthers wordIndex s (lookupIdx m.byLen l.toNat)) s1

/-- The candidate set assembled by `getCandidateDistractorIndices`
before the 200-element cap, with the full-catalog fallback applied when
the gathered set is empty. -/
def rawCandidates (words : List Entry) (mode : Nat) (wordIndex : Nat) : List Nat :=
  if neighborCandidates words mode wordIndex = [] then
    addOthers wordIndex (neighborCandidates words mode wordIndex) (List.range words.length)
  else neighborCandidates words mode wordIndex

/-- Function `getCandidateDistractorIndices` from `quiz-module.js`: the candidate
set, converted to an array and capped at 200 elements after a shuffle. -/
def getCandidateDistractorIndices (words : List Entry) (mode : Nat) (g : Nat → Nat)
    (wordIndex : Nat) : List Nat :=
  if (rawCandidates words mode wordIndex).length > 200 then
    (shuffleArray g (rawCandidates words mode wordIndex)).take 200
  else rawCandidates words mode wordIndex

/-- Catalog index `i` shares a truthy part-of-speech with the target. -/
def isPosMate (words : List Entry) (t i : Nat) : Prop :=
  (wordAt words i).pos = (wordAt words t).pos ∧ (wordAt words t).pos ≠ ""

/-- Catalog index `i`'s answer-text length is within ±2 of the
target's. -/
def isLenNeighbor (words : List Entry) (mode t i : Nat) : Prop :=
  (answerText words mode i).length ≤ (answerText words mode t).length + 2 ∧
    (answerText words mode t).length ≤ (answerText words mode i).length + 2

/-- Catalog index `i` is an indexed candidate distractor for target `t`:
a distinct in-range index that is a part-of-speech mate or an
answer-length neighbor. -/
def isNeighbor (words : List Entry) (mode t i : Nat) : Prop :=
  i < words.length ∧ i ≠ t ∧ (isPosMate words t i ∨ isLenNeighbor words mode t i)

theorem mem_lenStep (words : List Entry) (mode t len : Nat) (d : Int)
    (s : List Nat) (y : Nat) :
    (y ∈ (if (len : Int) + d < 0 then s
          else addOthers t s (lookupIdx (buildIndex words mode).byLen
            ((len : Int) + d).toNat))) ↔
    y ∈ s ∨ (0 ≤ (len : Int) + d ∧ y < words.length ∧ y ≠ t ∧
      ((answerText words mode y).length : Int) = (len : Int) + d) := by
  split_ifs with h
  · constructor
    · exact Or.inl
    · rintro (hy | hy)
      · exact hy
      · omega
  · rw [mem_addOthers, buildIndex_byLen]
    simp only [List.mem_filter, List.mem_range, decide_eq_true_eq, answerText]
    constructor
    · rintro (hy | ⟨⟨hy, hl⟩, hne⟩)
      · exact Or.inl hy
      · exact Or.inr ⟨by omega, hy, hne, by omega⟩
    · rintro (hy | ⟨_, hy, hne, hl⟩)
      · exact Or.inl hy
      · exact Or.inr ⟨⟨hy, by omega⟩, hne⟩

theorem mem_lenFold_gen (words : List Entry) (mode t len y : Nat) :
    ∀ (ds : List Int) (s : List Nat),
      (y ∈ ds.foldl
        (fun s d =>
          let l : Int := (len : Int) + d
          if l < 0 then s
          else addOthers t s (lookupIdx (buildIndex words mode).byLen l.toNat)) s) ↔
      y ∈ s ∨ ∃ d, d ∈ ds ∧ 0 ≤ (len : Int) + d ∧ y < words.length ∧ y ≠ t ∧
        ((answerText words mode y).length : Int) = (len : Int) + d
  | [], s => by simp
  | d :: ds, s => by
    rw [List.foldl_cons, mem_lenFold_gen words mode t len y ds]
    constructor
    · rintro (h | ⟨d2, hd2, h⟩)
      · have h2 : y ∈ (if (len : Int) + d < 0 then s
            else addOthers t s (lookupIdx (buildIndex words mode).byLen
              ((len : Int) + d).toNat)) := h
        rw [mem_lenStep] at h2
        rcases h2 with h2 | h2
        · exact Or.inl h2
        · exact Or.inr ⟨d, List.mem_cons_self d ds, h2⟩
      · exact Or.inr ⟨d2, List.mem_cons_of_mem d hd2, h⟩
    · rintro (h | ⟨d2, hd2, h⟩)
      · refine Or.inl (show y ∈ (if (len : Int) + d < 0 then s
            else addOthers t s (lookupIdx (buildIndex words mode).byLen
              ((len : Int) + d).toNat)) from ?_)
        rw [mem_lenStep]
        exact Or.inl h
      · rcases List.mem_cons.mp hd2 with rfl | hd2
        · refine Or.inl (show y ∈ (if (len : Int) + d2 < 0 then s
              else addOthers t s (lookupIdx (buildIndex words mode).byLen
                ((len : Int) + d2).toNat)) from ?_)
          rw [mem_lenStep]
          exact Or.inr h
        · exact Or.inr ⟨d2, hd2, h⟩


theorem mem_posPart (words : List Entry) (mode t y : Nat) :
    (y ∈ (if (wordAt words t).pos ≠ "" then
        addOthers t [] (lookupIdx (buildIndex words mode).byPOS (wordAt words t).pos)
      else [])) ↔
    y < words.length ∧ y ≠ t ∧ isPosMate words t y := by
  split_ifs with h
  · rw [mem_addOthers, buildIndex_byPOS, if_neg h]
    simp only [List.mem_filter, List.mem_range, decide_eq_true_eq, List.not_mem_nil,
      false_or, isPosMate]
    constructor
    · rintro ⟨⟨hy, hp⟩, hne⟩
      exact ⟨hy, hne, hp, h⟩
    · rintro ⟨hy, hne, hp, _⟩
      exact ⟨⟨hy, hp⟩, hne⟩
  · simp only [List.not_mem_nil, false_iff, isPosMate]
    rintro ⟨_, _, _, hp⟩
    exact hp (by simpa using h)

/-- Membership in the gathered (pre-fallback, pre-cap) candidate set is
exactly neighborhood. -/
theorem mem_neighborCandidates (words : List Entry) (mode t z : Nat) :
    z ∈ neighborCandidates words mode t ↔ isNeighbor words mode t z := by
  unfold neighborCandidates
  rw [mem_lenFold_gen, mem_posPart]
  unfold isNeighbor isLenNeighbor
  constructor
  · rintro (⟨hy, hne, hp⟩ | ⟨d, hd, h0, hy, hne, hl⟩)
    · exact ⟨hy, hne, Or.inl hp⟩
    · refine ⟨hy, hne, Or.inr ?_⟩
      simp only [List.mem_cons, List.not_mem_nil, or_false] at hd
      unfold answerText at hl ⊢
      rcases hd with rfl | rfl | rfl | rfl | rfl <;> omega
  · rintro ⟨hy, hne, hp | hlen⟩
    · exact Or.inl ⟨hy, hne, hp⟩
    · refine Or.inr ⟨((answerText words mode z).length : Int) -
        (((wordAt words t).field mode).length : Int), ?_, by
          unfold answerText at hlen ⊢
          omega, hy, hne, by omega⟩
      unfold answerText at hlen ⊢
      simp only [List.mem_cons, List.not_mem_nil, or_false]
      omega

/-- When the target has at least one neighbor, the pre-cap candidate set
is exactly the neighbor set. -/
theorem mem_rawCandidates_of_neighbor (words : List Entry) (mode t y : Nat)
    (h : ∃ j, isNeighbor words mode t j) :
    y ∈ rawCandidates words mode t ↔ isNeighbor words mode t y := by
  unfold rawCandidates
  rcases h with ⟨j, hj⟩
  rw [if_neg (by
    intro hnil
    rw [← mem_neighborCandidates words mode t j, hnil] at hj
    exact List.not_mem_nil j hj)]
  exact mem_neighborCandidates words mode t y

/-- When the target has no neighbor at all, the pre-cap candidate set
falls back to every other in-range index. -/
theorem mem_rawCandidates_of_no_neighbor (words : List Entry) (mode t y : Nat)
    (h : ¬∃ j, isNeighbor words mode t j) :
    y ∈ rawCandidates words mode t ↔ y < words.length ∧ y ≠ t := by
  unfold rawCandidates
  have hnil : neighborCandidates words mode t = [] := by
    rw [List.eq_nil_iff_forall_not_mem]
    intro j hj
    exact h ⟨j, (mem_neighborCandidates words mode t j).mp hj⟩
  rw [if_pos hnil, hnil, mem_addOthers]
  simp only [List.not_mem_nil, false_or, List.mem_range]

theorem nodup_neighborCandidates (words : List Entry) (mode t : Nat) :
    (neighborCandidates words mode t).Nodup := by
  unfold neighborCandidates
  simp only [List.foldl]
  have base : (if (wordAt words t).pos ≠ "" then
      addOthers t [] (lookupIdx (buildIndex words mode).byPOS (wordAt words t).pos)
    else ([] : List Nat)).Nodup := by
    split_ifs with h
    · exact nodup_addOthers t _ [] List.nodup_nil
    · exact List.nodup_nil
  have step : ∀ (d : Int) (s : List Nat), s.Nodup →
      (if (((wordAt words t).field mode).length : Int) + d < 0 then s
       else addOthers t s (lookupIdx (buildIndex words mode).byLen
         ((((wordAt words t).field mode).length : Int) + d).toNat)).Nodup := by
    intro d s hs
    split_ifs with h
    · exact hs
    · exact nodup_addOthers t _ s hs
  exact step 2 _ (step 1 _ (step 0 _ (step (-1) _ (step (-2) _ base))))

theorem nodup_rawCandidates (words : List Entry) (mode t : Nat) :
    (rawCandidates words mode t).Nodup := by
  unfold rawCandidates
  split_ifs with h
  · rw [h]
    exact nodup_addOthers t _ [] List.nodup_nil
  · exact nodup_neighborCandidates words mode t

theorem not_mem_rawCandidates_self (words : List Entry) (mode t : Nat) :
    t ∉ rawCandidates words mode t := by
  by_cases h : ∃ j, isNeighbor words mode t j
  · rw [mem_rawCandidates_of_neighbor words mode t t h]
    rintro ⟨_, hne, _⟩
    exact hne rfl
  · rw [mem_rawCandidates_of_no_neighbor words mode t t h]
    rintro ⟨_, hne⟩
    exact hne rfl

theorem rawCandidates_subset (words : List Entry) (mode t y : Nat)
    (h : y ∈ rawCandidates words mode t) : y < words.length ∧ y ≠ t := by
  by_cases hex : ∃ j, isNeighbor words mode t j
  · rw [mem_rawCandidates_of_neighbor words mode t y hex] at h
    exact ⟨h.1, h.2.1⟩
  · rwa [mem_rawCandidates_of_no_neighbor words mode t y hex] at h

theorem getCandidateDistractorIndices_subset (words : List Entry) (mode : Nat)
    (g : Nat → Nat) (t y : Nat) (h : y ∈ getCandidateDistractorIndices words mode g t) :
    y ∈ rawCandidates words mode t := by
  unfold getCandidateDistractorIndices at h
  split_ifs at h with hlen
  · exact (mem_shuffleArray g _ y).mp (List.take_subset 200 _ h)
  · exact h

theorem getCandidateDistractorIndices_length (words : List Entry) (mode : Nat)
    (g : Nat → Nat) (t : Nat) :
    (getCandidateDistractorIndices words mode g t).length ≤ 200 := by
  unfold getCandidateDistractorIndices
  split_ifs with hlen
  · simpa using List.length_take_le 200 _
  · omega

theorem getCandidateDistractorIndices_nodup (words : List Entry) (mode : Nat)
    (g : Nat → Nat) (t : Nat) :
    (getCandidateDistractorIndices words mode g t).Nodup := by
  unfold getCandidateDistractorIndices
  split_ifs with hlen
  · exact (shuffleArray_nodup g _ (nodup_rawCandidates words mode t)).sublist
      (List.take_sublist 200 _)
  · exact nodup_rawCandidates words mode t

theorem getCandidateDistractorIndices_uncapped (words : List Entry) (mode : Nat)
    (g : Nat → Nat) (t : Nat) (h : (rawCandidates words mode t).length ≤ 200) :
    getCandidateDistractorIndices words mode g t = rawCandidates words mode t := by
  unfold getCandidateDistractorIndices
  rw [if_neg (by omega)]

/-- Length of the longest common prefix of two character lists. -/
def lcpLen : List Char → List Char → Nat
  | a :: as, b :: bs => if a = b then lcpLen as bs + 1 else 0
  | _, _ => 0

/-- Length of the longest common suffix of two character lists; this is
the value of cell `dp[i][j]` of the `longestCommonSubstringLength` table
on the length-`i` and length-`j` prefixes (see `sufLen_take_succ`). -/
def sufLen (x y : List Char) : Nat := lcpLen x.reverse y.reverse

/-- The running maximum `max` accumulated by the double loop of
`longestCommonSubstringLength`. -/
def maxList (l : List Nat) : Nat := l.foldr max 0

/-- Function `longestCommonSubstringLength` from `quiz-module.js`: the DP fills
`dp[i][j] = (a[i-1] === b[j-1]) ? dp[i-1][j-1] + 1 : 0` and returns the
running maximum over all cells; cell `(i, j)` equals
`sufLen (a.take i) (b.take j)` (lemma `sufLen_take_succ` checks the
recurrence), so the result is the maximum over all prefix pairs. -/
def longestCommonSubstringLength (a b : String) : Nat :=
  maxList ((List.range (a.toList.length + 1)).map (fun i =>
    maxList ((List.range (b.toList.length + 1)).map (fun j =>
      sufLen (a.toList.take i) (b.toList.take j)))))

theorem sufLen_take_succ (A B : List Char) (i j : Nat) (hi : i < A.length)
    (hj : j < B.length) :
    sufLen (A.take (i + 1)) (B.take (j + 1)) =
      if A.get ⟨i, hi⟩ = B.get ⟨j, hj⟩ then sufLen (A.take i) (B.take j) + 1 else 0 := by
  unfold sufLen
  have hA : A.take (i + 1) = A.take i ++ [A.get ⟨i, hi⟩] := by
    rw [List.take_succ]
    congr 1
    rw [List.getElem?_eq_getElem hi]
    simp [List.get_eq_getElem]
  have hB : B.take (j + 1) = B.take j ++ [B.get ⟨j, hj⟩] := by
    rw [List.take_succ]
    congr 1
    rw [List.getElem?_eq_getElem hj]
    simp [List.get_eq_getElem]
  rw [hA, hB, List.reverse_append, List.reverse_append]
  simp [lcpLen]

theorem lcpLen_le_left : ∀ (x y : List Char), lcpLen x y ≤ x.length
  | [], _ => by simp [lcpLen]
  | _ :: _, [] => by simp [lcpLen]
  | a :: as, b :: bs => by
    unfold lcpLen
    split_ifs with h
    · have := lcpLen_le_left as bs
      simpa using this
    · simp

theorem lcpLen_take_eq : ∀ (x y : List Char),
    x.take (lcpLen x y) = y.take (lcpLen x y)
  | [], y => by simp [lcpLen]
  | _ :: _, [] => by simp [lcpLen]
  | a :: as, b :: bs => by
    unfold lcpLen
    split_ifs with h
    · subst h
      simp [lcpLen_take_eq as bs]
    · simp

theorem take_eq_of_le_lcpLen (x y : List Char) (t : Nat) (h : t ≤ lcpLen x y) :
    x.take t = y.take t := by
  have h1 : x.take t = (x.take (lcpLen x y)).take t := by
    rw [List.take_take, Nat.min_eq_left h]
  have h2 : y.take t = (y.take (lcpLen x y)).take t := by
    rw [List.take_take, Nat.min_eq_left h]
  rw [h1, h2, lcpLen_take_eq]

theorem le_lcpLen_append : ∀ (p x y : List Char), p.length ≤ lcpLen (p ++ x) (p ++ y)
  | [], _, _ => by simp
  | a :: p, x, y => by
    simp only [List.cons_append, List.length_cons]
    unfold lcpLen
    rw [if_pos rfl]
    have := le_lcpLen_append p x y
    omega

theorem le_maxList_of_mem (x : Nat) : ∀ (l : List Nat), x ∈ l → x ≤ maxList l
  | [], h => absurd h (List.not_mem_nil x)
  | a :: l, h => by
    unfold maxList
    rw [List.foldr_cons]
    rcases List.mem_cons.mp h with rfl | h2
    · exact Nat.le_max_left _ _
    · exact le_trans (le_maxList_of_mem x l h2) (Nat.le_max_right _ _)

theorem exists_of_le_maxList (t : Nat) : ∀ (l : List Nat), t ≤ maxList l →
    t = 0 ∨ ∃ x, x ∈ l ∧ t ≤ x
  | [], h => by
    unfold maxList at h
    simp at h
    omega
  | a :: l, h => by
    unfold maxList at h
    rw [List.foldr_cons] at h
    rcases le_max_iff.mp h with h2 | h2
    · exact Or.inr ⟨a, List.mem_cons_self a l, h2⟩
    · rcases exists_of_le_maxList t l h2 with h4 | ⟨x, hx, hxt⟩
      · exact Or.inl h4
      · exact Or.inr ⟨x, List.mem_cons_of_mem a hx, hxt⟩

/-- List `l` occurs as a contiguous substring of `a`. -/
def isSubstringOf (l a : List Char) : Prop := ∃ u v, a = u ++ l ++ v

/-- The DP result of `longestCommonSubstringLength` is at least `t`
exactly when the two strings share a contiguous substring of length at
least `t`: the table maximum really is the longest common contiguous
substring length. -/
theorem le_lcs_iff (a b : String) (t : Nat) :
    t ≤ longestCommonSubstringLength a b ↔
      ∃ l : List Char, isSubstringOf l a.toList ∧ isSubstringOf l b.toList ∧
        t ≤ l.length := by
  constructor
  · intro h
    rcases Nat.eq_zero_or_pos t with rfl | ht
    · exact ⟨[], ⟨[], a.toList, by simp⟩, ⟨[], b.toList, by simp⟩, by simp⟩
    · unfold longestCommonSubstringLength at h
      rcases exists_of_le_maxList t _ h with h0 | ⟨row, hrow, htrow⟩
      · omega
      rcases List.mem_map.mp hrow with ⟨i, _, rfl⟩
      rcases exists_of_le_maxList t _ htrow with h0 | ⟨cell, hcell, htcell⟩
      · omega
      rcases List.mem_map.mp hcell with ⟨j, _, rfl⟩
      have hc : t ≤ lcpLen (a.toList.take i).reverse (b.toList.take j).reverse := htcell
      have heq : ((a.toList.take i).reverse).take t = ((b.toList.take j).reverse).take t :=
        take_eq_of_le_lcpLen _ _ t hc
      have hlenr : (((a.toList.take i).reverse).take t).length = t := by
        rw [List.length_take]
        have h1 := lcpLen_le_left (a.toList.take i).reverse (b.toList.take j).reverse
        simp only [List.length_reverse] at h1 ⊢
        omega
      refine ⟨(((a.toList.take i).reverse).take t).reverse, ?_, ?_, by
        rw [List.length_reverse, hlenr]⟩
      · refine ⟨(((a.toList.take i).reverse).drop t).reverse, a.toList.drop i, ?_⟩
        set T := ((a.toList.take i).reverse).take t with hT
        set D := ((a.toList.take i).reverse).drop t with hD
        have h2 : a.toList.take i = D.reverse ++ T.reverse := by
          rw [hT, hD, ← List.reverse_append, List.take_append_drop, List.reverse_reverse]
        rw [← h2]
        exact (List.take_append_drop i a.toList).symm
      · refine ⟨(((b.toList.take j).reverse).drop t).reverse, b.toList.drop j, ?_⟩
        set T := ((a.toList.take i).reverse).take t with hT
        set TB := ((b.toList.take j).reverse).take t with hTB
        set DB := ((b.toList.take j).reverse).drop t with hDB
        have h2 : b.toList.take j = DB.reverse ++ TB.reverse := by
          rw [hTB, hDB, ← List.reverse_append, List.take_append_drop, List.reverse_reverse]
        rw [heq, ← h2]
        exact (List.take_append_drop j b.toList).symm
  · rintro ⟨l, ⟨u, v, hA⟩, ⟨s, w, hB⟩, htl⟩
    unfold longestCommonSubstringLength
    have hiA : (u ++ l).length ≤ a.toList.length := by
      rw [hA]
      simp [List.length_append]
    have hjB : (s ++ l).length ≤ b.toList.length := by
      rw [hB]
      simp [List.length_append]
    have h1 : a.toList.take (u ++ l).length = u ++ l := by
      rw [hA]
      exact List.take_left (u ++ l) v
    have h2 : b.toList.take (s ++ l).length = s ++ l := by
      rw [hB]
      exact List.take_left (s ++ l) w
    have hcell : l.length ≤
        sufLen (a.toList.take (u ++ l).length) (b.toList.take (s ++ l).length) := by
      rw [h1, h2]
      unfold sufLen
      rw [List.reverse_append, List.reverse_append]
      have h3 := le_lcpLen_append l.reverse u.reverse s.reverse
      rw [List.length_reverse] at h3
      exact h3
    have hcellmem : sufLen (a.toList.take (u ++ l).length)
          (b.toList.take (s ++ l).length) ∈
        (List.range (b.toList.length + 1)).map
          (fun j => sufLen (a.toList.take (u ++ l).length) (b.toList.take j)) :=
      List.mem_map.mpr ⟨(s ++ l).length, List.mem_range.mpr (by omega), rfl⟩
    have hrowmem : maxList ((List.range (b.toList.length + 1)).map
          (fun j => sufLen (a.toList.take (u ++ l).length) (b.toList.take j))) ∈
        (List.range (a.toList.length + 1)).map (fun i =>
          maxList ((List.range (b.toList.length + 1)).map
            (fun j => sufLen (a.toList.take i) (b.toList.take j)))) :=
      List.mem_map.mpr ⟨(u ++ l).length, List.mem_range.mpr (by omega), rfl⟩
    calc t ≤ l.length := htl
      _ ≤ sufLen (a.toList.take (u ++ l).length) (b.toList.take (s ++ l).length) :=
          hcell
      _ ≤ maxList ((List.range (b.toList.length + 1)).map
            (fun j => sufLen (a.toList.take (u ++ l).length) (b.toList.take j))) :=
          le_maxList_of_mem _ _ hcellmem
      _ ≤ _ := le_maxList_of_mem _ _ hrowmem

/-- JS `String.prototype.toLowerCase`, modelled per character (on the
ASCII answer texts the program compares, the two agree and the length is
preserved). -/
def jsToLower (s : String) : String := String.mk (s.toList.map Char.toLower)

/-- The `avoidSimilarDistractors` filter predicate inside
`createChoicesFor`: keep a candidate answer iff its longest common
substring with the lowercased correct answer stays below
`max(3, Math.floor(target.length / 2))`. -/
def keepDissimilar (correctAnswer candText : String) : Bool :=
  decide (longestCommonSubstringLength (jsToLower correctAnswer) (jsToLower candText) <
    max 3 ((jsToLower correctAnswer).length / 2))

/-- The `{ choices, correctIndex, word }` payload of `createChoicesFor`.
`correctIndex` is `choices.indexOf(correctAnswer)`, which is never `-1`
because the correct answer is always inserted, so it is a `Nat`. -/
structure QuestionPayload where
  choices : List String
  correctIndex : Nat
  word : Entry
deriving DecidableEq, Repr

/-- The `candidateDistractors` list of `createChoicesFor` after the
emptiness fallback (the `length === 0` full scan, which keeps catalog
order), before the similarity filter.  Candidate entries are tracked by
catalog index: normalized entry references are in one-to-one
correspondence with catalog indices.  The `try/catch` around
`getCandidateDistractorIndices` is dead in the embedding because the
embedded function is total. -/
def distractorBase (words : List Entry) (mode : Nat) (gCand : Nat → Nat)
    (wordIndex : Nat) : List Nat :=
  if getCandidateDistractorIndices words mode gCand wordIndex = [] then
    (List.range words.length).filter (fun idx => decide (idx ≠ wordIndex))
  else getCandidateDistractorIndices words mode gCand wordIndex

/-- The `candidateDistractors` list after the optional
`avoidSimilarDistractors` filter. -/
def candPool (words : List Entry) (mode : Nat) (avoidSimilar : Bool)
    (gCand : Nat → Nat) (wordIndex : Nat) : List Nat :=
  if avoidSimilar then
    (distractorBase words mode gCand wordIndex).filter (fun i =>
      keepDissimilar ((wordAt words wordIndex).field mode) (answerText words mode i))
  else distractorBase words mode gCand wordIndex

/-- The `shuffledDistractors` array of `createChoicesFor`. -/
def shuffledPool (words : List Entry) (mode : Nat) (avoidSimilar : Bool)
    (gCand gDist : Nat → Nat) (wordIndex : Nat) : List Nat :=
  shuffleArray gDist (candPool words mode avoidSimilar gCand wordIndex)

/-- The `fallback` list of `createChoicesFor`: the full catalog minus
the target and everything in `shuffledDistractors` (an entry-reference
`includes`, i.e. index membership), in catalog order. -/
def fallbackPool (words : List Entry) (mode : Nat) (avoidSimilar : Bool)
    (gCand gDist : Nat → Nat) (wordIndex : Nat) : List Nat :=
  (List.range words.length).filter (fun idx =>
    decide (idx ≠ wordIndex ∧
      idx ∉ shuffledPool words mode avoidSimilar gCand gDist wordIndex))

/-- The catalog indices whose answers become `wrongAnswers`: the first
`selection - 1` shuffled candidates, topped up from `fallbackPool` (the
top-up loop takes fallback entries in order until `wrongAnswers` is
full). -/
def wrongIdx (words : List Entry) (mode selection : Nat) (avoidSimilar : Bool)
    (gCand gDist : Nat → Nat) (wordIndex : Nat) : List Nat :=
  (shuffledPool words mode avoidSimilar gCand gDist wordIndex).take (selection - 1) ++
    (fallbackPool words mode avoidSimilar gCand gDist wordIndex).take
      (selection - 1 -
        ((shuffledPool words mode avoidSimilar gCand gDist wordIndex).take
          (selection - 1)).length)

/-- The `wrongAnswers` array of `createChoicesFor`: a prefix of the
shuffled candidate pool's answers, topped up from the full catalog scan
when the pool is short (`wrongAnswers_eq_map` identifies this with
`wrongIdx`). -/
def wrongAnswers (words : List Entry) (mode selection : Nat) (avoidSimilar : Bool)
    (gCand gDist : Nat → Nat) (wordIndex : Nat) : List String :=
  if (((shuffledPool words mode avoidSimilar gCand gDist wordIndex).take
        (selection - 1)).map (answerText words mode)).length < selection - 1 then
    ((shuffledPool words mode avoidSimilar gCand gDist wordIndex).take
      (selection - 1)).map (answerText words mode) ++
      ((fallbackPool words mode avoidSimilar gCand gDist wordIndex).take
        (selection - 1 -
          (((shuffledPool words mode avoidSimilar gCand gDist wordIndex).take
            (selection - 1)).map (answerText words mode)).length)).map
        (answerText words mode)
  else
    ((shuffledPool words mode avoidSimilar gCand gDist wordIndex).take
      (selection - 1)).map (answerText words mode)

/-- Function `createChoicesFor` from `quiz-module.js`, assembled from the stages
above: prepend the correct answer to the wrong answers, shuffle, and
point `correctIndex` at the correct answer via `indexOf`.  `gCand`,
`gDist` and `gChoice` are the random streams consumed by the three
`shuffleArray` call sites. -/
def createChoicesFor (words : List Entry) (mode selection : Nat) (avoidSimilar : Bool)
    (gCand gDist gChoice : Nat → Nat) (wordIndex : Nat) : QuestionPayload :=
  let correctAnswer := (wordAt words wordIndex).field mode
  let choices := shuffleArray gChoice
    (correctAnswer :: wrongAnswers words mode selection avoidSimilar gCand gDist wordIndex)
  ⟨choices, choices.indexOf correctAnswer, wordAt words wordIndex⟩

/-- Functions `resetUsedWordsIfNeeded` and `chooseWordIndex` from `quiz-module.js`:
clear `usedWords` once it covers the whole catalog, pick a random index
among those not yet used (`r` is the `Math.random()` draw, and
`Math.floor(Math.random() * len)` is `0` when `len = 0`), record it in
`usedWords` and return it.  `none` models the `undefined` element read
off the empty `available` array, which the program rules out by checking
for data before generating a question. -/
def availableIdx (n : Nat) (used : List Nat) : List Nat :=
  (List.range n).filter (fun i => decide (i ∉ used))

def chooseWordIndex (n : Nat) (usedWords : List Nat) (r : Nat) :
    Option (Nat × List Nat) :=
  match (availableIdx n (if usedWords.length = n then [] else usedWords))[
      if (availableIdx n (if usedWords.length = n then [] else usedWords)).length = 0
      then 0
      else r % (availableIdx n
        (if usedWords.length = n then [] else usedWords)).length]? with
  | none => none
  | some chosen =>
    some (chosen, (if usedWords.length = n then [] else usedWords) ++ [chosen])

/-- Consecutive question-to-question word selections: thread `usedWords`
through `chooseWordIndex`, one random draw per call, returning the list
of chosen indices and the final `usedWords`. -/
def runChoose (n : Nat) (usedWords : List Nat) :
    List Nat → Option (List Nat × List Nat)
  | [] => some ([], usedWords)
  | r :: rs =>
    match chooseWordIndex n usedWords r with
    | none => none
    | some (c, used2) =>
      match runChoose n used2 rs with
      | none => none
      | some (cs, u) => some (c :: cs, u)

/-- One entry of the session result log. -/
structure ResultItem where
  question : String
  correctAnswer : String
  hint : String
  answer : String
  correct : Bool
  hintUsed : Bool
deriving DecidableEq, Repr

/-- One element of `stats.sessions`; `ts` models `Date.now()`. -/
structure SessionRec where
  ts : Nat
  score : Nat
  questionCount : Nat
deriving DecidableEq, Repr

/-- One `stats.perWord` record. -/
structure PerWordRec where
  attempts : Nat
  correct : Nat
  hintUsed : Nat
deriving DecidableEq, Repr

/-- The persisted stats blob.  `highScore` is an `Int`: it is read back
from `JSON.parse` of the stored string, which `loadStats` never
validates, so any JSON number can sit there. -/
structure StatsV where
  sessions : List SessionRec
  perWord : List (String × PerWordRec)
  highScore : Int
deriving DecidableEq, Repr

def pwLookup : List (String × PerWordRec) → String → Option PerWordRec
  | [], _ => none
  | (k, v) :: rest, key => if k = key then some v else pwLookup rest key

def pwSet : List (String × PerWordRec) → String → PerWordRec →
    List (String × PerWordRec)
  | [], key, v => [(key, v)]
  | (k, w) :: rest, key, v =>
    if k = key then (k, v) :: rest else (k, w) :: pwSet rest key v

/-- The per-result `perWord` tally bump of `updateStatsWithSession`:
`attempts += 1`, `correct += 1` when answered correctly, `hintUsed += 1`
when a hint existed and was used. -/
def bumpPerWord (r : ResultItem) (cur : PerWordRec) : PerWordRec :=
  ⟨cur.attempts + 1,
    cur.correct + (if r.correct then 1 else 0),
    cur.hintUsed + (if r.hint ≠ "" ∧ r.hintUsed then 1 else 0)⟩

/-- The key `r.correctAnswer || r.question || "<unknown>"`. -/
def perWordKey (r : ResultItem) : String :=
  if r.correctAnswer ≠ "" then r.correctAnswer
  else if r.question ≠ "" then r.question
  else "<unknown>"

/-- The count `results.filter((r) => r.correct).length`. -/
def sessionScore (results : List ResultItem) : Nat :=
  (results.filter (fun r => r.correct)).length

/-- Append `stats.sessions.push(session)` with the session record of this run;
`now` models `Date.now()`. -/
def withSession (stats : StatsV) (results : List ResultItem)
    (questionCount now : Nat) : StatsV :=
  { stats with
    sessions := stats.sessions ++ [⟨now, sessionScore results, questionCount⟩] }

/-- The update `if (!stats.highScore || correct > stats.highScore) stats.highScore
= correct` — the falsy check means a stored `0` is overwritten (by the
same value when `correct = 0`). -/
def withHighScore (stats : StatsV) (correct : Nat) : StatsV :=
  if stats.highScore = 0 ∨ (correct : Int) > stats.highScore then
    { stats with highScore := (correct : Int) }
  else stats

/-- The pure state update of `updateStatsWithSession` on the loaded
stats: count correct answers, append a session record, bump `highScore`
when it is falsy (`0`) or exceeded, and update the per-word tallies. -/
def updateStatsCore (stats : StatsV) (results : List ResultItem)
    (questionCount now : Nat) : StatsV :=
  results.foldl
    (fun s r =>
      { s with
        perWord :=
          pwSet s.perWord (perWordKey r)
            (bumpPerWord r ((pwLookup s.perWord (perWordKey r)).getD ⟨0, 0, 0⟩)) })
    (withHighScore (withSession stats results questionCount now)
      (sessionScore results))

/-- The empty stats value `{ sessions: [], perWord: {}, highScore: 0 }`. -/
def emptyStats : StatsV := ⟨[], [], 0⟩

/-- Model of `window.localStorage` plus `JSON` as seen by
`loadStats`/`saveStats`: the raw stored string under the stats key,
whether each store operation throws, and an abstract
`JSON.parse`/`JSON.stringify` pair (`parse raw = none` when `JSON.parse`
would throw on `raw`). -/
structure StoreModel where
  stored : Option String
  getThrows : Bool
  setThrows : Bool
  removeThrows : Bool
  parse : String → Option StatsV
  serialize : StatsV → String

/-- Function `loadStats` from `quiz-module.js`: return the parsed stats; on any
read failure (`getItem` throwing, nothing stored reads as absent, or
`JSON.parse` throwing) return the empty stats, best-effort removing the
corrupt key inside the catch.  Returns the stats together with the store
after the removal side effect. -/
def loadStats (st : StoreModel) : StatsV × StoreModel :=
  if st.getThrows then
    (emptyStats, if st.removeThrows then st else { st with stored := none })
  else
    match st.stored with
    | none => (emptyStats, st)
    | some raw =>
      match st.parse raw with
      | some s => (s, st)
      | none =>
        (emptyStats, if st.removeThrows then st else { st with stored := none })

/-- Function `saveStats` from `quiz-module.js`: serialize and store, silently
ignoring a throwing `setItem`. -/
def saveStats (st : StoreModel) (s : StatsV) : StoreModel :=
  if st.setThrows then st else { st with stored := some (st.serialize s) }

/-- Function `updateStatsWithSession` from `quiz-module.js`: load (best effort),
update, save (best effort); always returns the updated stats. -/
def updateStatsWithSession (st : StoreModel) (results : List ResultItem)
    (questionCount now : Nat) : StatsV × StoreModel :=
  let loaded := loadStats st
  let stats := updateStatsCore loaded.1 results questionCount now
  (stats, saveStats loaded.2 stats)

/-- A JavaScript value, as far as `normalizeWords` inspects one
(`NaN` is not modelled; numeric falsiness is `0`). -/
inductive JSVal where
  | jsUndefined
  | jsNull
  | jsBool (b : Bool)
  | jsNum (n : Int)
  | jsStr (s : String)
  | jsArr (items : List JSVal)
  | jsObj (fields : List (String × JSVal))

/-- JS truthiness. -/
def jsTruthy : JSVal → Bool
  | .jsUndefined => false
  | .jsNull => false
  | .jsBool b => b
  | .jsNum n => decide (n ≠ 0)
  | .jsStr s => decide (s ≠ "")
  | .jsArr _ => true
  | .jsObj _ => true

/-- The JS `x || y` operator. -/
def jsOr (x y : JSVal) : JSVal := if jsTruthy x then x else y

/-- Property access `v.key` as `normalizeWords` performs it: own fields
of object values; every other receiver reads `undefined` (the code never
dereferences `null`/`undefined`, guarding each such access with
`|| {}`). -/
def getProp : JSVal → String → JSVal
  | .jsObj fields, key =>
    ((fields.find? (fun kv => decide (kv.1 = key))).map Prod.snd).getD .jsUndefined
  | _, _ => .jsUndefined

/-- One element pushed onto `out` by `normalizeWords`: the JS array
`[w, m, h, p]`.  Each slot holds whatever JS value the code computed —
a string in the intended cases, but not always. -/
structure RawEntry where
  w : JSVal
  m : JSVal
  h : JSVal
  p : JSVal

/-- One iteration of `normalizeWords`' per-item loop over an array
input: the entries pushed for this item (`[]` when it is skipped).
For an object without a string `word` field the code reads
`Object.keys(item)[0]`; on an empty object that key is `undefined`, the
lookup `item[key]` coerces it to the property name `"undefined"`, and
the pushed headword is the JS value `undefined` itself. -/
def normItem : JSVal → List RawEntry
  | .jsArr xs =>
    [⟨jsOr (xs.getD 0 .jsUndefined) (.jsStr ""),
      jsOr (xs.getD 1 .jsUndefined) (.jsStr ""),
      jsOr (xs.getD 2 .jsUndefined) (.jsStr ""),
      jsOr (xs.getD 3 .jsUndefined) (.jsStr "")⟩]
  | .jsObj fields =>
    match getProp (.jsObj fields) "word" with
    | .jsStr w =>
      [⟨jsOr (.jsStr w) (.jsStr ""),
        jsOr (getProp (.jsObj fields) "meaning") (.jsStr ""),
        jsOr (getProp (.jsObj fields) "hint") (.jsStr ""),
        jsOr (getProp (.jsObj fields) "POS") (.jsStr "")⟩]
    | _ =>
      match fields.head? with
      | some kv =>
        [⟨.jsStr kv.1,
          jsOr (getProp (jsOr (getProp (.jsObj fields) kv.1) (.jsObj [])) "meaning")
            (.jsStr ""),
          jsOr (getProp (jsOr (getProp (.jsObj fields) kv.1) (.jsObj [])) "hint")
            (.jsStr ""),
          jsOr (getProp (jsOr (getProp (.jsObj fields) kv.1) (.jsObj [])) "POS")
            (.jsStr "")⟩]
      | none =>
        [⟨.jsUndefined,
          jsOr (getProp (jsOr (getProp (.jsObj fields) "undefined") (.jsObj []))
            "meaning") (.jsStr ""),
          jsOr (getProp (jsOr (getProp (.jsObj fields) "undefined") (.jsObj []))
            "hint") (.jsStr ""),
          jsOr (getProp (jsOr (getProp (.jsObj fields) "undefined") (.jsObj []))
            "POS") (.jsStr "")⟩]
  | .jsStr s => [⟨.jsStr s, .jsStr "", .jsStr "", .jsStr ""⟩]
  | _ => []

/-- Function `normalizeWords` from `quiz-module.js` over modelled JS values:
falsy input yields `[]`; an array is normalized item by item in order; a
(non-array) object is treated as a word-to-record map in key order;
any other truthy primitive falls through to the empty output. -/
def normalizeWords : JSVal → List RawEntry
  | .jsArr items => items.flatMap normItem
  | .jsObj fields =>
    fields.map (fun kv =>
      ⟨.jsStr kv.1,
        jsOr (getProp (jsOr kv.2 (.jsObj [])) "meaning") (.jsStr ""),
        jsOr (getProp (jsOr kv.2 (.jsObj [])) "hint") (.jsStr ""),
        jsOr (getProp (jsOr kv.2 (.jsObj [])) "POS") (.jsStr "")⟩)
  | _ => []

theorem wrongAnswers_eq_map (words : List Entry) (mode selection : Nat)
    (avoidSimilar : Bool) (gCand gDist : Nat → Nat) (t : Nat) :
    wrongAnswers words mode selection avoidSimilar gCand gDist t =
      (wrongIdx words mode selection avoidSimilar gCand gDist t).map
        (answerText words mode) := by
  unfold wrongAnswers wrongIdx
  rw [List.length_map]
  split_ifs with h
  · rw [List.map_append]
  · have hz : selection - 1 -
        ((shuffledPool words mode avoidSimilar gCand gDist t).take
          (selection - 1)).length = 0 := by omega
    rw [hz]
    simp

theorem distractorBase_facts (words : List Entry) (mode : Nat) (gCand : Nat → Nat)
    (t : Nat) :
    (distractorBase words mode gCand t).Nodup ∧
      ∀ y ∈ distractorBase words mode gCand t, y < words.length ∧ y ≠ t := by
  unfold distractorBase
  split_ifs with h
  · refine ⟨List.Nodup.filter _ (List.nodup_range _), ?_⟩
    intro y hy
    rw [List.mem_filter, List.mem_range, decide_eq_true_eq] at hy
    exact hy
  · exact ⟨getCandidateDistractorIndices_nodup words mode gCand t,
      fun y hy => rawCandidates_subset words mode t y
        (getCandidateDistractorIndices_subset words mode gCand t y hy)⟩

theorem candPool_facts (words : List Entry) (mode : Nat) (avoidSimilar : Bool)
    (gCand : Nat → Nat) (t : Nat) :
    (candPool words mode avoidSimilar gCand t).Nodup ∧
      ∀ y ∈ candPool words mode avoidSimilar gCand t, y < words.length ∧ y ≠ t := by
  obtain ⟨hnd, hmem⟩ := distractorBase_facts words mode gCand t
  unfold candPool
  split_ifs with h
  · exact ⟨List.Nodup.filter _ hnd,
      fun y hy => hmem y (List.mem_of_mem_filter hy)⟩
  · exact ⟨hnd, hmem⟩

theorem shuffledPool_facts (words : List Entry) (mode : Nat) (avoidSimilar : Bool)
    (gCand gDist : Nat → Nat) (t : Nat) :
    (shuffledPool words mode avoidSimilar gCand gDist t).Nodup ∧
      ∀ y ∈ shuffledPool words mode avoidSimilar gCand gDist t,
        y < words.length ∧ y ≠ t := by
  obtain ⟨hnd, hmem⟩ := candPool_facts words mode avoidSimilar gCand t
  unfold shuffledPool
  exact ⟨shuffleArray_nodup gDist _ hnd,
    fun y hy => hmem y ((mem_shuffleArray gDist _ y).mp hy)⟩

theorem length_filter_out_others (n t : Nat) (P : List Nat) (ht : t < n)
    (hnd : P.Nodup) (hsub : ∀ y ∈ P, y < n ∧ y ≠ t) :
    ((List.range n).filter (fun idx => decide (idx ≠ t ∧ idx ∉ P))).length =
      n - 1 - P.length := by
  have hpart := @List.length_eq_length_filter_add Nat (List.range n)
    (fun idx => decide (idx ≠ t ∧ idx ∉ P))
  have hperm : ((List.range n).filter
      (fun idx => !(decide (idx ≠ t ∧ idx ∉ P)))).Perm (t :: P) := by
    rw [List.perm_ext_iff_of_nodup (List.Nodup.filter _ (List.nodup_range n))
      (List.nodup_cons.mpr ⟨fun hmem => (hsub t hmem).2 rfl, hnd⟩)]
    intro x
    rw [List.mem_filter, List.mem_range, List.mem_cons]
    constructor
    · rintro ⟨hx, hcond⟩
      rcases Decidable.em (x = t) with hxt | hxt
      · exact Or.inl hxt
      · rcases Decidable.em (x ∈ P) with hxp | hxp
        · exact Or.inr hxp
        · rw [decide_eq_true (show x ≠ t ∧ x ∉ P from ⟨hxt, hxp⟩)] at hcond
          simp at hcond
    · rintro (rfl | hx)
      · refine ⟨ht, ?_⟩
        rw [decide_eq_false (show ¬(x ≠ x ∧ x ∉ P) from fun hc => hc.1 rfl)]
        rfl
      · refine ⟨(hsub x hx).1, ?_⟩
        rw [decide_eq_false (show ¬(x ≠ t ∧ x ∉ P) from fun hc => hc.2 hx)]
        rfl
  have hlen := hperm.length_eq
  rw [List.length_cons] at hlen
  rw [List.length_range] at hpart
  omega

theorem fallbackPool_length (words : List Entry) (mode : Nat) (avoidSimilar : Bool)
    (gCand gDist : Nat → Nat) (t : Nat) (ht : t < words.length) :
    (fallbackPool words mode avoidSimilar gCand gDist t).length =
      words.length - 1 - (shuffledPool words mode avoidSimilar gCand gDist t).length := by
  obtain ⟨hnd, hsub⟩ := shuffledPool_facts words mode avoidSimilar gCand gDist t
  exact length_filter_out_others words.length t _ ht hnd hsub

theorem shuffledPool_length_le (words : List Entry) (mode : Nat) (avoidSimilar : Bool)
    (gCand gDist : Nat → Nat) (t : Nat) (ht : t < words.length) :
    (shuffledPool words mode avoidSimilar gCand gDist t).length ≤ words.length - 1 := by
  obtain ⟨hnd, hsub⟩ := shuffledPool_facts words mode avoidSimilar gCand gDist t
  have hsubper : List.Subperm (shuffledPool words mode avoidSimilar gCand gDist t)
      ((List.range words.length).filter (fun idx => decide (idx ≠ t))) := by
    apply List.subperm_of_subset hnd
    intro y hy
    rw [List.mem_filter, List.mem_range]
    exact ⟨(hsub y hy).1, decide_eq_true (hsub y hy).2⟩
  have hlen := hsubper.length_le
  have hflen : ((List.range words.length).filter
      (fun idx => decide (idx ≠ t))).length = words.length - 1 := by
    have hpart := @List.length_eq_length_filter_add Nat (List.range words.length)
      (fun idx => decide (idx ≠ t))
    have hperm : ((List.range words.length).filter
        (fun idx => !(decide (idx ≠ t)))).Perm [t] := by
      rw [List.perm_ext_iff_of_nodup (List.Nodup.filter _ (List.nodup_range _))
        (List.nodup_singleton t)]
      intro x
      rw [List.mem_filter, List.mem_range, List.mem_singleton]
      constructor
      · rintro ⟨_, hcond⟩
        rcases Decidable.em (x = t) with hxt | hxt
        · exact hxt
        · rw [decide_eq_true hxt] at hcond
          simp at hcond
      · rintro rfl
        refine ⟨ht, ?_⟩
        rw [decide_eq_false (show ¬(x ≠ x) from fun hc => hc rfl)]
        rfl
    have hl := hperm.length_eq
    rw [List.length_singleton] at hl
    rw [List.length_range] at hpart
    omega
  omega

theorem wrongIdx_facts (words : List Entry) (mode selection : Nat)
    (avoidSimilar : Bool) (gCand gDist : Nat → Nat) (t : Nat)
    (ht : t < words.length) :
    (wrongIdx words mode selection avoidSimilar gCand gDist t).Nodup ∧
      (∀ y ∈ wrongIdx words mode selection avoidSimilar gCand gDist t,
        y < words.length ∧ y ≠ t) ∧
      (wrongIdx words mode selection avoidSimilar gCand gDist t).length =
        min (selection - 1) (words.length - 1) := by
  obtain ⟨hPnd, hPsub⟩ := shuffledPool_facts words mode avoidSimilar gCand gDist t
  have hFnd : (fallbackPool words mode avoidSimilar gCand gDist t).Nodup := by
    unfold fallbackPool
    exact List.Nodup.filter _ (List.nodup_range _)
  have hFmem : ∀ y ∈ fallbackPool words mode avoidSimilar gCand gDist t,
      y < words.length ∧ y ≠ t ∧
        y ∉ shuffledPool words mode avoidSimilar gCand gDist t := by
    intro y hy
    unfold fallbackPool at hy
    rw [List.mem_filter, List.mem_range, decide_eq_true_eq] at hy
    exact ⟨hy.1, hy.2.1, hy.2.2⟩
  have hFlen := fallbackPool_length words mode avoidSimilar gCand gDist t ht
  have hPle := shuffledPool_length_le words mode avoidSimilar gCand gDist t ht
  unfold wrongIdx
  refine ⟨?_, ?_, ?_⟩
  · rw [List.nodup_append]
    refine ⟨List.Sublist.nodup (List.take_sublist _ _) hPnd,
      List.Sublist.nodup (List.take_sublist _ _) hFnd, ?_⟩
    intro y hy hy2
    have hyP := List.take_subset _ _ hy
    have hyF := List.take_subset _ _ hy2
    exact (hFmem y hyF).2.2 hyP
  · intro y hy
    rcases List.mem_append.mp hy with hy | hy
    · exact hPsub y (List.take_subset _ _ hy)
    · exact ⟨(hFmem y (List.take_subset _ _ hy)).1,
        (hFmem y (List.take_subset _ _ hy)).2.1⟩
  · rw [List.length_append, List.length_take, List.length_take, hFlen]
    omega

theorem choices_perm (words : List Entry) (mode selection : Nat)
    (avoidSimilar : Bool) (gCand gDist gChoice : Nat → Nat) (t : Nat) :
    (createChoicesFor words mode selection avoidSimilar gCand gDist gChoice t).choices.Perm
      (answerText words mode t ::
        (wrongIdx words mode selection avoidSimilar gCand gDist t).map
          (answerText words mode)) := by
  unfold createChoicesFor
  simp only
  rw [wrongAnswers_eq_map]
  exact shuffleArray_perm gChoice _

theorem choices_length (words : List Entry) (mode selection : Nat)
    (avoidSimilar : Bool) (gCand gDist gChoice : Nat → Nat) (t : Nat)
    (ht : t < words.length) :
    (createChoicesFor words mode selection avoidSimilar gCand gDist gChoice
      t).choices.length = 1 + min (selection - 1) (words.length - 1) := by
  have hperm := choices_perm words mode selection avoidSimilar gCand gDist gChoice t
  rw [hperm.length_eq, List.length_cons, List.length_map,
    (wrongIdx_facts words mode selection avoidSimilar gCand gDist t ht).2.2]
  omega

theorem correctIndex_eq (words : List Entry) (mode selection : Nat)
    (avoidSimilar : Bool) (gCand gDist gChoice : Nat → Nat) (t : Nat) :
    (createChoicesFor words mode selection avoidSimilar gCand gDist gChoice
        t).correctIndex =
      (createChoicesFor words mode selection avoidSimilar gCand gDist gChoice
        t).choices.indexOf (answerText words mode t) := rfl

/-- Claim C2 (confirmed): for every catalog of size at least
`cfg.selection` (with `selection ≥ 1`; the spec only admits
`selectionCount ≥ 2`) and every in-range target, the generated question
has exactly `selection` choices — when the indexed/filtered pool falls
short, the full-catalog rescan tops the wrong answers up. -/
theorem claim_C2 (words : List Entry) (mode selection : Nat) (avoidSimilar : Bool)
    (gCand gDist gChoice : Nat → Nat) (wordIndex : Nat)
    (hsel : 1 ≤ selection) (hsize : selection ≤ words.length)
    (ht : wordIndex < words.length) :
    (createChoicesFor words mode selection avoidSimilar gCand gDist gChoice
      wordIndex).choices.length = selection := by
  rw [choices_length words mode selection avoidSimilar gCand gDist gChoice wordIndex ht]
  omega

/-- A four-entry catalog with pairwise distinct answers in both modes. -/
def sampleCatalog : List Entry :=
  [⟨"cat", "ねこ", "", "名詞"⟩, ⟨"dog", "いぬ", "", "名詞"⟩,
   ⟨"run", "はしる", "", "動詞"⟩, ⟨"blue", "あお", "", "形容詞"⟩]

theorem claim_C2_witness :
    (createChoicesFor sampleCatalog 1 4 false (fun _ => 0) (fun _ => 0) (fun _ => 0)
      0).choices.length = 4 :=
  claim_C2 sampleCatalog 1 4 false (fun _ => 0) (fun _ => 0) (fun _ => 0) 0
    (by decide) (by decide) (by decide)

/-- Claim C1, amended: for every non-empty catalog and in-range target,
the generated `choices` contain the correct answer (the target's
answer-text for the active mode) at least once, and `correctIndex` is
the first position of the correct answer in the post-shuffle sequence,
so `choices[correctIndex]` is the correct answer.  The correct answer
appears exactly once provided no other catalog entry shares the
target's answer text; with duplicate answer texts it can appear more
than once (see the counterexample), since no duplicate filtering is
performed. -/
theorem claim_C1_amended (words : List Entry) (mode selection : Nat)
    (avoidSimilar : Bool) (gCand gDist gChoice : Nat → Nat) (wordIndex : Nat)
    (ht : wordIndex < words.length) :
    (answerText words mode wordIndex ∈
      (createChoicesFor words mode selection avoidSimilar gCand gDist gChoice
        wordIndex).choices) ∧
    ((createChoicesFor words mode selection avoidSimilar gCand gDist gChoice
        wordIndex).choices.get?
      (createChoicesFor words mode selection avoidSimilar gCand gDist gChoice
        wordIndex).correctIndex = some (answerText words mode wordIndex)) ∧
    ((∀ j, j < words.length → j ≠ wordIndex →
        answerText words mode j ≠ answerText words mode wordIndex) →
      (createChoicesFor words mode selection avoidSimilar gCand gDist gChoice
        wordIndex).choices.count (answerText words mode wordIndex) = 1) := by
  have hperm := choices_perm words mode selection avoidSimilar gCand gDist gChoice
    wordIndex
  have hmem : answerText words mode wordIndex ∈
      (createChoicesFor words mode selection avoidSimilar gCand gDist gChoice
        wordIndex).choices :=
    hperm.mem_iff.mpr (List.mem_cons_self _ _)
  refine ⟨hmem, ?_, ?_⟩
  · rw [correctIndex_eq]
    exact List.indexOf_get? hmem
  · intro hdist
    rw [hperm.count_eq, List.count_cons_self]
    have hzero : ((wrongIdx words mode selection avoidSimilar gCand gDist
        wordIndex).map (answerText words mode)).count
        (answerText words mode wordIndex) = 0 := by
      rw [List.count_eq_zero]
      intro hmem2
      rcases List.mem_map.mp hmem2 with ⟨j, hj, hje⟩
      obtain ⟨hjlt, hjne⟩ :=
        (wrongIdx_facts words mode selection avoidSimilar gCand gDist wordIndex
          ht).2.1 j hj
      exact hdist j hjlt hjne hje
    omega

theorem claim_C1_witness :
    answerText sampleCatalog 1 0 ∈
      (createChoicesFor sampleCatalog 1 4 false (fun _ => 0) (fun _ => 0)
        (fun _ => 0) 0).choices ∧
    (createChoicesFor sampleCatalog 1 4 false (fun _ => 0) (fun _ => 0)
        (fun _ => 0) 0).choices.count (answerText sampleCatalog 1 0) = 1 :=
  ⟨(claim_C1_amended sampleCatalog 1 4 false (fun _ => 0) (fun _ => 0) (fun _ => 0)
      0 (by decide)).1,
    (claim_C1_amended sampleCatalog 1 4 false (fun _ => 0) (fun _ => 0) (fun _ => 0)
      0 (by decide)).2.2 (by decide)⟩

/-- A two-entry catalog whose two entries share the answer text `"a"`
in mode 0. -/
def dupCatalog : List Entry := [⟨"a", "x", "", ""⟩, ⟨"a", "y", "", ""⟩]

/-- Claim C1, counterexample: on a catalog with duplicate answer texts
the correct answer appears twice among the choices, not exactly once. -/
theorem claim_C1_counterexample :
    (createChoicesFor dupCatalog 0 4 false (fun _ => 0) (fun _ => 0) (fun _ => 0)
      0).choices.count (answerText dupCatalog 0 0) = 2 := by decide

/-- Claim C6, amended: for every catalog with `1 ≤ size < selection`,
every generated question has `choices.length = size`; the choices are
duplicate-free provided the catalog's answer texts are pairwise
distinct (with duplicate answer texts duplicates do appear — see the
counterexample); and in the one-word case the single choice is the
correct answer with no distractors. -/
theorem claim_C6_amended (words : List Entry) (mode selection : Nat)
    (avoidSimilar : Bool) (gCand gDist gChoice : Nat → Nat) (wordIndex : Nat)
    (hn : 1 ≤ words.length) (hlt : words.length < selection)
    (ht : wordIndex < words.length) :
    (createChoicesFor words mode selection avoidSimilar gCand gDist gChoice
      wordIndex).choices.length = words.length ∧
    ((∀ i j, i < words.length → j < words.length → i ≠ j →
        answerText words mode i ≠ answerText words mode j) →
      (createChoicesFor words mode selection avoidSimilar gCand gDist gChoice
        wordIndex).choices.Nodup) ∧
    (words.length = 1 →
      (createChoicesFor words mode selection avoidSimilar gCand gDist gChoice
        wordIndex).choices = [answerText words mode wordIndex]) := by
  have hperm := choices_perm words mode selection avoidSimilar gCand gDist gChoice
    wordIndex
  obtain ⟨hwnd, hwmem, hwlen⟩ :=
    wrongIdx_facts words mode selection avoidSimilar gCand gDist wordIndex ht
  refine ⟨?_, ?_, ?_⟩
  · rw [choices_length words mode selection avoidSimilar gCand gDist gChoice
      wordIndex ht]
    omega
  · intro hdist
    rw [hperm.nodup_iff]
    rw [List.nodup_cons]
    constructor
    · intro hmem2
      rcases List.mem_map.mp hmem2 with ⟨j, hj, hje⟩
      obtain ⟨hjlt, hjne⟩ := hwmem j hj
      exact hdist j wordIndex hjlt ht hjne hje
    · refine List.Nodup.map_on ?_ hwnd
      intro i hi j hj hij
      obtain ⟨hilt, _⟩ := hwmem i hi
      obtain ⟨hjlt, _⟩ := hwmem j hj
      by_contra hne
      exact hdist i j hilt hjlt hne hij
  · intro h1
    have hwz : wrongIdx words mode selection avoidSimilar gCand gDist wordIndex = [] := by
      rw [← List.length_eq_zero]
      omega
    unfold createChoicesFor
    simp only
    rw [wrongAnswers_eq_map, hwz]
    exact shuffleArray_singleton gChoice _

theorem claim_C6_witness :
    (createChoicesFor [(⟨"cat", "ねこ", "", "名詞"⟩ : Entry)] 1 4 false
      (fun _ => 0) (fun _ => 0) (fun _ => 0) 0).choices = ["ねこ"] :=
  (claim_C6_amended [⟨"cat", "ねこ", "", "名詞"⟩] 1 4 false (fun _ => 0) (fun _ => 0)
    (fun _ => 0) 0 (by decide) (by decide) (by decide)).2.2 (by decide)

/-- Claim C6, counterexample: a two-entry catalog with duplicate answer
texts and `selection = 4` yields the duplicate choices `["a", "a"]`. -/
theorem claim_C6_counterexample :
    ¬ (createChoicesFor dupCatalog 0 4 false (fun _ => 0) (fun _ => 0) (fun _ => 0)
      0).choices.Nodup := by decide

/-- Claim C3 (confirmed): the pre-cap candidate pool is exactly the
union of part-of-speech mates and ±2 answer-length neighbors (excluding
the target); when that union is empty it is every other catalog index;
and the returned sequence is the pool itself when it has at most 200
elements, else a 200-element truncation of a shuffle of it — in all
cases at most 200 elements, drawn from the pool, never containing the
target. -/
theorem claim_C3 (words : List Entry) (mode : Nat) (g : Nat → Nat) (t : Nat)
    (ht : t < words.length) :
    ((∃ j, isNeighbor words mode t j) →
      ∀ y, (y ∈ rawCandidates words mode t ↔ isNeighbor words mode t y)) ∧
    ((¬∃ j, isNeighbor words mode t j) →
      ∀ y, (y ∈ rawCandidates words mode t ↔ y < words.length ∧ y ≠ t)) ∧
    (getCandidateDistractorIndices words mode g t).length ≤ 200 ∧
    t ∉ getCandidateDistractorIndices words mode g t ∧
    (∀ y ∈ getCandidateDistractorIndices words mode g t,
      y ∈ rawCandidates words mode t) ∧
    ((rawCandidates words mode t).length ≤ 200 →
      getCandidateDistractorIndices words mode g t = rawCandidates words mode t) := by
  refine ⟨fun hex y => mem_rawCandidates_of_neighbor words mode t y hex,
    fun hex y => mem_rawCandidates_of_no_neighbor words mode t y hex,
    getCandidateDistractorIndices_length words mode g t,
    fun hmem => not_mem_rawCandidates_self words mode t
      (getCandidateDistractorIndices_subset words mode g t t hmem),
    fun y => getCandidateDistractorIndices_subset words mode g t y,
    getCandidateDistractorIndices_uncapped words mode g t⟩

theorem claim_C3_witness :
    (getCandidateDistractorIndices sampleCatalog 1 (fun _ => 0) 0).length ≤ 200 ∧
    0 ∉ getCandidateDistractorIndices sampleCatalog 1 (fun _ => 0) 0 :=
  ⟨(claim_C3 sampleCatalog 1 (fun _ => 0) 0 (by decide)).2.2.1,
    (claim_C3 sampleCatalog 1 (fun _ => 0) 0 (by decide)).2.2.2.1⟩

/-- Claim C10 (confirmed): after `buildIndex`, every in-range catalog
index sits in the `byLen` bucket of its own answer-text length and in no
other bucket, and it sits in some `byPOS` bucket exactly when its POS
field is a non-empty string — so entries with an empty POS are reachable
as candidates only through the length neighborhood or the full-catalog
fallback. -/
theorem claim_C10 (words : List Entry) (mode i : Nat) (hi : i < words.length) :
    (i ∈ lookupIdx (buildIndex words mode).byLen
      ((wordAt words i).field mode).length) ∧
    (∀ l, i ∈ lookupIdx (buildIndex words mode).byLen l →
      l = ((wordAt words i).field mode).length) ∧
    ((∃ p, i ∈ lookupIdx (buildIndex words mode).byPOS p) ↔
      (wordAt words i).pos ≠ "") := by
  refine ⟨?_, ?_, ?_, ?_⟩
  · rw [buildIndex_byLen, List.mem_filter, List.mem_range]
    exact ⟨hi, by simp⟩
  · intro l hl
    rw [buildIndex_byLen, List.mem_filter, decide_eq_true_eq] at hl
    exact hl.2.symm
  · rintro ⟨p, hp⟩
    rw [buildIndex_byPOS] at hp
    by_cases hpe : p = ""
    · rw [if_pos hpe] at hp
      exact absurd hp (List.not_mem_nil i)
    · rw [if_neg hpe, List.mem_filter, decide_eq_true_eq] at hp
      rw [hp.2]
      exact hpe
  · intro hpos
    refine ⟨(wordAt words i).pos, ?_⟩
    rw [buildIndex_byPOS, if_neg hpos, List.mem_filter, List.mem_range]
    exact ⟨hi, by simp⟩

theorem claim_C10_witness :
    0 ∈ lookupIdx (buildIndex sampleCatalog 1).byLen
      ((wordAt sampleCatalog 0).field 1).length :=
  (claim_C10 sampleCatalog 1 0 (by decide)).1

theorem availableIdx_ne_nil (n : Nat) (used : List Nat) (hnd : used.Nodup)
    (hlt : used.length < n) : availableIdx n used ≠ [] := by
  intro hnil
  have hsubset : List.range n ⊆ used := by
    intro i hi
    by_contra hmem
    have : i ∈ availableIdx n used := by
      unfold availableIdx
      rw [List.mem_filter]
      exact ⟨hi, decide_eq_true hmem⟩
    rw [hnil] at this
    exact List.not_mem_nil i this
  have := (List.subperm_of_subset (List.nodup_range n) hsubset).length_le
  rw [List.length_range] at this
  omega

theorem chooseWordIndex_step (n : Nat) (used : List Nat) (r : Nat)
    (hnd : used.Nodup) (hlt : used.length < n) :
    ∃ c, chooseWordIndex n used r = some (c, used ++ [c]) ∧ c < n ∧ c ∉ used := by
  have hne : used.length ≠ n := by omega
  have havail := availableIdx_ne_nil n used hnd hlt
  have hlen0 : (availableIdx n used).length ≠ 0 := by
    intro h
    exact havail (List.length_eq_zero.mp h)
  have hmod : r % (availableIdx n used).length < (availableIdx n used).length :=
    Nat.mod_lt r (by omega)
  unfold chooseWordIndex
  rw [if_neg hne, if_neg hlen0, List.getElem?_eq_getElem hmod]
  refine ⟨(availableIdx n used).get ⟨r % (availableIdx n used).length, hmod⟩, rfl,
    ?_⟩
  have hmem : (availableIdx n used).get ⟨r % (availableIdx n used).length, hmod⟩ ∈
      availableIdx n used := List.get_mem (availableIdx n used) _ hmod
  unfold availableIdx at hmem
  rw [List.mem_filter, List.mem_range, decide_eq_true_eq] at hmem
  exact hmem

theorem runChoose_lap (n : Nat) : ∀ (rs : List Nat) (used : List Nat),
    used.Nodup → (∀ y ∈ used, y < n) → used.length + rs.length = n →
    ∃ cs, runChoose n used rs = some (cs, used ++ cs) ∧
      (used ++ cs).Perm (List.range n)
  | [], used => by
    intro hnd hsub hlen
    simp only [List.length_nil, Nat.add_zero] at hlen
    refine ⟨[], by simp [runChoose], ?_⟩
    rw [List.append_nil]
    refine List.Subperm.perm_of_length_le ?_ ?_
    · refine List.subperm_of_subset hnd ?_
      intro y hy
      rw [List.mem_range]
      exact hsub y hy
    · rw [List.length_range]
      omega
  | r :: rs, used => by
    intro hnd hsub hlen
    have hlt : used.length < n := by
      rw [List.length_cons] at hlen
      omega
    obtain ⟨c, hstep, hclt, hcnot⟩ := chooseWordIndex_step n used r hnd hlt
    have hnd2 : (used ++ [c]).Nodup := by
      rw [List.nodup_append]
      exact ⟨hnd, List.nodup_singleton c,
        fun y hy hyc => hcnot (by rwa [List.mem_singleton.mp hyc] at hy)⟩
    have hsub2 : ∀ y ∈ used ++ [c], y < n := by
      intro y hy
      rcases List.mem_append.mp hy with hy | hy
      · exact hsub y hy
      · rw [List.mem_singleton.mp hy]
        exact hclt
    have hlen2 : (used ++ [c]).length + rs.length = n := by
      rw [List.length_append, List.length_singleton]
      rw [List.length_cons] at hlen
      omega
    obtain ⟨cs, hrun, hperm⟩ := runChoose_lap n rs (used ++ [c]) hnd2 hsub2 hlen2
    refine ⟨c :: cs, ?_, ?_⟩
    · simp only [runChoose, hstep, hrun]
      rw [← List.append_cons]
    · rw [List.append_cons]
      exact hperm

/-- Claim C4 (confirmed): starting from an empty `usedWords`, across
`catalogSize` consecutive `chooseWordIndex` calls every catalog index is
chosen exactly once (the chosen sequence is a permutation of the index
range, hence duplicate-free), and once `usedWords` covers the whole
catalog it is cleared entirely before the next choice, so
`chooseWordIndex` behaves as from an empty `usedWords`. -/
theorem claim_C4 (n : Nat) (rs : List Nat) (hn : 0 < n) (hlen : rs.length = n) :
    (∃ cs used, runChoose n [] rs = some (cs, used) ∧
      cs.Perm (List.range n) ∧ cs.Nodup) ∧
    (∀ used r, used.length = n → chooseWordIndex n used r = chooseWordIndex n [] r) := by
  constructor
  · obtain ⟨cs, hrun, hperm⟩ := runChoose_lap n rs []
      List.nodup_nil (by intro y hy; exact absurd hy (List.not_mem_nil y)) (by simpa)
    rw [List.nil_append] at hperm
    exact ⟨cs, [] ++ cs, hrun, hperm, hperm.nodup_iff.mpr (List.nodup_range n)⟩
  · intro used r hused
    have h1 : (if used.length = n then ([] : List Nat) else used) = [] := if_pos hused
    have h2 : (if ([] : List Nat).length = n then ([] : List Nat) else []) = [] := by
      split_ifs <;> rfl
    unfold chooseWordIndex
    rw [h1, h2]

theorem claim_C4_witness :
    (∃ cs used, runChoose 3 [] [0, 0, 0] = some (cs, used) ∧
      cs.Perm (List.range 3) ∧ cs.Nodup) ∧
    chooseWordIndex 3 [2, 0, 1] 0 = chooseWordIndex 3 [] 0 :=
  ⟨(claim_C4 3 [0, 0, 0] (by decide) (by decide)).1,
    (claim_C4 3 [0, 0, 0] (by decide) (by decide)).2 [2, 0, 1] 0 (by decide)⟩

/-- Claim C5 (confirmed): with the similarity filter enabled, a
candidate answer is dropped iff the lowercased texts share a contiguous
substring of length at least `max(3, floor(targetLen / 2))`; in
particular `"insisting"` is dropped against target `"insist"`; and
every index surviving the filtered candidate pool passes the keep
predicate. -/
theorem claim_C5 :
    (∀ correctAnswer candText : String,
      keepDissimilar correctAnswer candText = false ↔
        ∃ l : List Char, isSubstringOf l (jsToLower correctAnswer).toList ∧
          isSubstringOf l (jsToLower candText).toList ∧
          max 3 ((jsToLower correctAnswer).length / 2) ≤ l.length) ∧
    keepDissimilar "insist" "insisting" = false ∧
    (∀ (words : List Entry) (mode : Nat) (gCand : Nat → Nat) (t i : Nat),
      i ∈ candPool words mode true gCand t →
      keepDissimilar ((wordAt words t).field mode) (answerText words mode i) =
        true) := by
  refine ⟨?_, ?_, ?_⟩
  · intro ca cand
    unfold keepDissimilar
    rw [decide_eq_false_iff_not, Nat.not_lt]
    exact le_lcs_iff (jsToLower ca) (jsToLower cand) _
  · decide
  · intro words mode gCand t i hi
    unfold candPool at hi
    rw [if_pos rfl] at hi
    exact (List.mem_filter.mp hi).2

/-- A catalog whose second answer shares no long substring with the
first. -/
def simCatalog : List Entry := [⟨"insist", "m1", "", ""⟩, ⟨"xyzq", "m2", "", ""⟩]

theorem claim_C5_witness :
    keepDissimilar "insist" "insisting" = false ∧
    keepDissimilar ((wordAt simCatalog 0).field 0) (answerText simCatalog 0 1) =
      true :=
  ⟨claim_C5.2.1, claim_C5.2.2 simCatalog 0 (fun _ => 0) 0 1 (by decide)⟩

/-- Claim C7, amended: `normalizeWords` is total on any input sequence:
items are processed independently and in input order, each contributing
at most one entry; exactly the items that are neither arrays, objects
nor strings are silently skipped; a bare string item becomes an entry
with the three other fields empty; and missing trailing fields of a
tuple item default to the empty string.  However, the emitted entries
are not always well-formed string 4-tuples: a keyless object item is
not skipped and yields an entry whose headword is the JS `undefined`
value (see the counterexample); a tuple item holding a truthy
non-string value passes that value through. -/
theorem claim_C7_amended :
    (∀ items : List JSVal, normalizeWords (.jsArr items) = items.flatMap normItem) ∧
    (∀ it : JSVal, (normItem it).length ≤ 1) ∧
    (∀ it : JSVal, normItem it = [] ↔
      (it = .jsUndefined ∨ it = .jsNull ∨ (∃ b, it = .jsBool b) ∨ (∃ m, it = .jsNum m))) ∧
    (∀ s, normItem (.jsStr s) = [⟨.jsStr s, .jsStr "", .jsStr "", .jsStr ""⟩]) ∧
    (∀ xs : List JSVal, xs.length ≤ 3 →
      ∃ e, normItem (.jsArr xs) = [e] ∧ e.p = .jsStr "") ∧
    (∀ xs : List JSVal, xs.length ≤ 2 →
      ∃ e, normItem (.jsArr xs) = [e] ∧ e.h = .jsStr "" ∧ e.p = .jsStr "") ∧
    (∀ xs : List JSVal, xs.length ≤ 1 →
      ∃ e, normItem (.jsArr xs) = [e] ∧ e.m = .jsStr "" ∧ e.h = .jsStr "" ∧
        e.p = .jsStr "") := by
  have hgetD : ∀ (xs : List JSVal) (k : Nat), xs.length ≤ k →
      xs.getD k JSVal.jsUndefined = JSVal.jsUndefined := by
    intro xs k hk
    rw [List.getD_eq_getElem?_getD, List.getElem?_eq_none hk]
    rfl
  have hlen1 : ∀ it : JSVal, (normItem it).length ≤ 1 := by
    intro it
    cases it <;> simp only [normItem, List.length_nil, List.length_cons] <;>
      try omega
    split
    · simp
    · split <;> simp
  refine ⟨fun items => rfl, hlen1, ?_, fun s => rfl, ?_, ?_, ?_⟩
  · intro it
    cases it with
    | jsUndefined => simp [normItem]
    | jsNull => simp [normItem]
    | jsBool b => simp [normItem]
    | jsNum m => simp [normItem]
    | jsStr s => simp [normItem]
    | jsArr xs => simp [normItem]
    | jsObj fields =>
      simp only [normItem]
      constructor
      · intro h
        exfalso
        revert h
        split
        · simp
        · split <;> simp
      · rintro (h | h | ⟨b, h⟩ | ⟨m, h⟩) <;> exact JSVal.noConfusion h
  · intro xs h3
    exact ⟨_, rfl, by rw [show xs.getD 3 JSVal.jsUndefined = JSVal.jsUndefined from hgetD xs 3 h3]; rfl⟩
  · intro xs h2
    refine ⟨_, rfl, ?_, ?_⟩
    · rw [show xs.getD 2 JSVal.jsUndefined = JSVal.jsUndefined from hgetD xs 2 h2]
      rfl
    · rw [show xs.getD 3 JSVal.jsUndefined = JSVal.jsUndefined from hgetD xs 3 (by omega)]
      rfl
  · intro xs h1
    refine ⟨_, rfl, ?_, ?_, ?_⟩
    · rw [show xs.getD 1 JSVal.jsUndefined = JSVal.jsUndefined from hgetD xs 1 h1]
      rfl
    · rw [show xs.getD 2 JSVal.jsUndefined = JSVal.jsUndefined from hgetD xs 2 (by omega)]
      rfl
    · rw [show xs.getD 3 JSVal.jsUndefined = JSVal.jsUndefined from hgetD xs 3 (by omega)]
      rfl

/-- Claim C7, counterexample: the empty-object item `{}` is not skipped
and is normalized to an entry whose headword slot holds the JS
`undefined` value rather than a string. -/
theorem claim_C7_counterexample :
    normalizeWords (.jsArr [.jsObj []]) =
      [⟨.jsUndefined, .jsStr "", .jsStr "", .jsStr ""⟩] ∧
    (⟨.jsUndefined, .jsStr "", .jsStr "", .jsStr ""⟩ : RawEntry).w ≠ .jsStr "" :=
  ⟨rfl, fun h => JSVal.noConfusion h⟩

theorem updateStatsCore_fold_preserves :
    ∀ (results : List ResultItem) (s : StatsV),
      (results.foldl
        (fun s r =>
          { s with
            perWord :=
              pwSet s.perWord (perWordKey r)
                (bumpPerWord r
                  ((pwLookup s.perWord (perWordKey r)).getD ⟨0, 0, 0⟩)) })
        s).highScore = s.highScore ∧
      (results.foldl
        (fun s r =>
          { s with
            perWord :=
              pwSet s.perWord (perWordKey r)
                (bumpPerWord r
                  ((pwLookup s.perWord (perWordKey r)).getD ⟨0, 0, 0⟩)) })
        s).sessions = s.sessions
  | [], s => ⟨rfl, rfl⟩
  | r :: results, s => by
    rw [List.foldl_cons]
    exact updateStatsCore_fold_preserves results _

theorem updateStatsCore_highScore (stats : StatsV) (results : List ResultItem)
    (qc now : Nat) :
    (updateStatsCore stats results qc now).highScore =
      (if stats.highScore = 0 ∨ ((sessionScore results : Int)) > stats.highScore
       then ((sessionScore results : Int)) else stats.highScore) := by
  unfold updateStatsCore
  rw [(updateStatsCore_fold_preserves results _).1]
  unfold withHighScore withSession
  split_ifs with h1 h2 h2 <;> simp_all

theorem updateStatsCore_sessions (stats : StatsV) (results : List ResultItem)
    (qc now : Nat) :
    (updateStatsCore stats results qc now).sessions =
      stats.sessions ++ [⟨now, sessionScore results, qc⟩] := by
  unfold updateStatsCore
  rw [(updateStatsCore_fold_preserves results _).2]
  unfold withHighScore withSession
  split_ifs <;> rfl

/-- Claim C8, amended: for any prior stored stats with a non-negative
`highScore` (every value this program itself ever writes; a negative
value can only come from a corrupted-but-parseable store, where the
claim fails — see the counterexample), persisting a session appends
exactly one session record carrying the session's correct count (score
`0` for an empty result list), an empty result list leaves `highScore`
unchanged, and `highScore` changes only when the session's correct
count exceeds the stored value. -/
theorem claim_C8_amended (stats : StatsV) (results : List ResultItem)
    (qc now : Nat) (hhs : 0 ≤ stats.highScore) :
    ((updateStatsCore stats results qc now).sessions =
      stats.sessions ++ [⟨now, sessionScore results, qc⟩]) ∧
    (results = [] →
      (updateStatsCore stats results qc now).highScore = stats.highScore) ∧
    ((updateStatsCore stats results qc now).highScore ≠ stats.highScore →
      ((sessionScore results : Int)) > stats.highScore) := by
  refine ⟨updateStatsCore_sessions stats results qc now, ?_, ?_⟩
  · rintro rfl
    rw [updateStatsCore_highScore]
    have hs0 : sessionScore ([] : List ResultItem) = 0 := rfl
    rw [hs0]
    split_ifs with h
    · rcases h with h | h
      · omega
      · omega
    · rfl
  · intro hne
    rw [updateStatsCore_highScore] at hne
    split_ifs at hne with h
    · rcases h with h | h
      · rw [h] at hne ⊢
        omega
      · exact h
    · exact absurd rfl hne

theorem claim_C8_witness :
    (updateStatsCore ⟨[], [], 0⟩ [] 5 7).sessions = [⟨7, 0, 5⟩] ∧
    (updateStatsCore ⟨[], [], 0⟩ [] 5 7).highScore = 0 :=
  ⟨(claim_C8_amended ⟨[], [], 0⟩ [] 5 7 (by decide)).1,
    (claim_C8_amended ⟨[], [], 0⟩ [] 5 7 (by decide)).2.1 rfl⟩

/-- Claim C8, counterexample: with a stored (corrupt but parseable)
`highScore` of `-1`, persisting an empty session changes `highScore`
(the falsy-or-exceeded check overwrites it with `0`), so "changes it by
0 for any prior stored highScore value" fails. -/
theorem claim_C8_counterexample :
    (updateStatsCore ⟨[], [], -1⟩ [] 5 7).highScore = 0 ∧ (-1 : Int) ≠ 0 := by
  constructor
  · rfl
  · decide

/-- Claim C9 (confirmed): persistence failures never propagate — for
every store behavior, `loadStats` returns the empty stats on any read
failure (`getItem` throwing, nothing stored, or unparseable data),
`saveStats` is a silent no-op when `setItem` throws, and
`updateStatsWithSession` always returns the additively updated stats
regardless of the store. -/
theorem claim_C9 (st : StoreModel) (results : List ResultItem) (qc now : Nat) :
    (st.getThrows = true → (loadStats st).1 = emptyStats) ∧
    (st.stored = none → (loadStats st).1 = emptyStats) ∧
    (∀ raw, st.stored = some raw → st.parse raw = none →
      (loadStats st).1 = emptyStats) ∧
    (st.setThrows = true → ∀ s, saveStats st s = st) ∧
    ((updateStatsWithSession st results qc now).1 =
      updateStatsCore (loadStats st).1 results qc now) := by
  refine ⟨?_, ?_, ?_, ?_, rfl⟩
  · intro hg
    unfold loadStats
    rw [if_pos hg]
  · intro hs
    unfold loadStats
    rw [hs]
    split_ifs <;> rfl
  · intro raw hs hp
    unfold loadStats
    rw [hs]
    by_cases hg : st.getThrows = true
    · rw [if_pos hg]
    · rw [if_neg hg]
      show (match st.parse raw with
        | some s => (s, st)
        | none =>
          (emptyStats,
            if st.removeThrows = true then st
            else { st with stored := none })).1 = emptyStats
      rw [hp]
  · intro hset s
    unfold saveStats
    rw [if_pos hset]

/-- A store whose every operation fails and whose contents never
parse. -/
def brokenStore : StoreModel :=
  ⟨some "not json", true, true, true, fun _ => none, fun _ => ""⟩

theorem claim_C9_witness :
    (loadStats brokenStore).1 = emptyStats ∧
    saveStats brokenStore emptyStats = brokenStore ∧
    (updateStatsWithSession brokenStore [] 5 7).1 =
      updateStatsCore (loadStats brokenStore).1 [] 5 7 :=
  ⟨(claim_C9 brokenStore [] 5 7).1 rfl,
    (claim_C9 brokenStore [] 5 7).2.2.2.1 rfl emptyStats,
    (claim_C9 brokenStore [] 5 7).2.2.2.2⟩

theorem claim_C7_witness :
    normItem (.jsStr "hello") =
      [⟨.jsStr "hello", .jsStr "", .jsStr "", .jsStr ""⟩] ∧
    (∃ e, normItem (.jsArr [.jsStr "w"]) = [e] ∧ e.m = .jsStr "" ∧
      e.h = .jsStr "" ∧ e.p = .jsStr "") :=
  ⟨claim_C7_amended.2.2.2.1 "hello",
    claim_C7_amended.2.2.2.2.2.2 [.jsStr "w"] (by decide)⟩
